import Mathlib

/-!
Shallow embedding of the kernel library in src/mcp-local/examples/cpp
(simulator.h / simulator.cpp), together with proofs of the spec's claims.

Buffers are modelled as total functions from addresses (Nat) to an
abstract element type: a write is a pointwise functional update.  The
element type of the float buffers is kept abstract (no floating-point
computation other than per-element addition occurs, and addition is kept
as an abstract binary operation, so every theorem holds for IEEE floats
as an instance).  Accesses that the C code performs without any bound
check are mirrored by unchecked functional reads/writes; where a claim
is about staying inside a buffer of a given length, an explicitly
checked variant (returning Option, none on an out-of-range access) and
an access-index list are derived from the same loop structure.
-/

namespace Sim

/-- Pointwise functional update of a buffer: the store a[k] = v. -/
def upd {α : Type} (f : Nat → α) (k : Nat) (v : α) : Nat → α :=
  fun a => if a = k then v else f a

theorem upd_self {α : Type} (f : Nat → α) (k : Nat) (v : α) : upd f k v k = v := by
  simp [upd]

theorem upd_other {α : Type} (f : Nat → α) (k : Nat) (v : α) {a : Nat} (h : a ≠ k) :
    upd f k v a = f a := by
  simp [upd, h]

/-- Fold of a fallible loop body over an iteration list: the loop either
runs every iteration to completion or aborts at the first failure. -/
def foldChk {σ : Type} (f : σ → Nat → Option σ) : σ → List Nat → Option σ
  | s, [] => some s
  | s, i :: l =>
    match f s i with
    | some t => foldChk f t l
    | none => none

theorem foldChk_of_all_some {σ : Type} (f : σ → Nat → Option σ) (g : σ → Nat → σ)
    (l : List Nat) (hl : ∀ i ∈ l, ∀ s, f s i = some (g s i)) (s : σ) :
    foldChk f s l = some (l.foldl g s) := by
  induction l generalizing s with
  | nil => rfl
  | cons i l ih =>
    have hi : f s i = some (g s i) := hl i (List.mem_cons_self i l) s
    simp only [foldChk, hi, List.foldl_cons]
    exact ih (fun j hj t => hl j (List.mem_cons_of_mem i hj) t) (g s i)

/-- Concatenation of the lists produced by g over l (an explicit flatMap,
used to flatten nested loops into a single iteration list). -/
def concatMapL {β γ : Type} (g : β → List γ) : List β → List γ
  | [] => []
  | b :: l => g b ++ concatMapL g l

theorem mem_concatMapL {β γ : Type} (g : β → List γ) (l : List β) (c : γ) :
    c ∈ concatMapL g l ↔ ∃ b ∈ l, c ∈ g b := by
  induction l with
  | nil => simp [concatMapL]
  | cons b l ih => simp [concatMapL, ih]

theorem foldl_concatMapL {β γ σ : Type} (g : β → List γ) (f : σ → γ → σ)
    (l : List β) (s : σ) :
    (concatMapL g l).foldl f s = l.foldl (fun s b => (g b).foldl f s) s := by
  induction l generalizing s with
  | nil => rfl
  | cons b l ih => simp [concatMapL, List.foldl_append, ih]

/-!
Vector Position Updater (ParticleSimulator::update_positions_baseline and
ParticleSimulator::update_positions_simd, simulator.cpp lines 7-22 and
74-80).  The four caller-owned float arrays x, y, vx, vy are the fields
of a state record; fadd is the abstract per-element float addition.
-/

/-- State of one update_positions call: the four borrowed buffers. -/
@[ext]
structure PState (α : Type) where
  x : Nat → α
  y : Nat → α
  vx : Nat → α
  vy : Nat → α

/-- Body of the scalar loop at index i: x[i] += vx[i]; y[i] += vy[i].
The same per-element data flow is performed, eight lanes at a time, by
the AVX2 group body (loads of all four arrays precede both stores, and
the four arrays are distinct, so lane-sequential execution is exact). -/
def pstep {α : Type} (fadd : α → α → α) (s : PState α) (i : Nat) : PState α :=
  { x := upd s.x i (fadd (s.x i) (s.vx i))
    y := upd s.y i (fadd (s.y i) (s.vy i))
    vx := s.vx
    vy := s.vy }

/-- ParticleSimulator::update_positions_baseline: the scalar loop
for (i = 0; i < n; ++i) { x[i] += vx[i]; y[i] += vy[i]; }. -/
def update_positions_baseline {α : Type} (fadd : α → α → α) (n : Nat) (s : PState α) :
    PState α :=
  (List.range n).foldl (pstep fadd) s

/-- Start indices of the AVX2 groups: i = 0, 8, 16, ... while i < n,
i.e. the loop header for (i = 0; i < n; i += 8). -/
def groupStarts (n : Nat) : List Nat :=
  List.range' 0 ((n + 7) / 8) 8

/-- One AVX2 group at start index i: 256-bit loads of x, y, vx, vy at
&x[i].., two vector adds, stores back, touching lanes i .. i+7. -/
def groupStep {α : Type} (fadd : α → α → α) (s : PState α) (i : Nat) : PState α :=
  (List.range' i 8).foldl (pstep fadd) s

/-- Checked AVX2 group body on buffers of length n: every load and store
of the group touches exactly the indices i .. i+7 of its array, so the
group is in bounds iff i + 8 <= n; an out-of-range access is an error. -/
def groupStepChk {α : Type} (fadd : α → α → α) (n : Nat) (s : PState α) (i : Nat) :
    Option (PState α) :=
  if i + 8 ≤ n then some (groupStep fadd s i) else none

/-- ParticleSimulator::update_positions_simd with each 256-bit access
bound-checked against the buffer length n (none = out-of-range access). -/
def update_positions_simd {α : Type} (fadd : α → α → α) (n : Nat) (s : PState α) :
    Option (PState α) :=
  foldChk (groupStepChk fadd n) s (groupStarts n)

/-- ParticleSimulator::update_positions_simd with unchecked accesses
(every read/write lands, whether or not its index is below n). -/
def update_positions_simd_total {α : Type} (fadd : α → α → α) (n : Nat) (s : PState α) :
    PState α :=
  (groupStarts n).foldl (groupStep fadd) s

/-- Indices of the array cells read and written by update_positions_simd:
all lanes of all groups. -/
def simd_access_indices (n : Nat) : List Nat :=
  concatMapL (fun i => List.range' i 8) (groupStarts n)

theorem fold_pstep_vx {α : Type} (fadd : α → α → α) (l : List Nat) (s : PState α) :
    (l.foldl (pstep fadd) s).vx = s.vx ∧ (l.foldl (pstep fadd) s).vy = s.vy := by
  induction l generalizing s with
  | nil => exact ⟨rfl, rfl⟩
  | cons i l ih => simpa [pstep] using ih (pstep fadd s i)

/-- Flattening the group loop: running the groups in order is running the
scalar body over the contiguous index range they cover. -/
theorem fold_groupStep_eq {α : Type} (fadd : α → α → α) :
    ∀ (g i : Nat) (s : PState α),
      (List.range' i g 8).foldl (groupStep fadd) s =
        (List.range' i (8 * g)).foldl (pstep fadd) s := by
  intro g
  induction g with
  | zero => intro i s; rfl
  | succ g ih =>
    intro i s
    have hsplit : List.range' i 8 ++ List.range' (i + 8) (8 * g) =
        List.range' i (8 * (g + 1)) := by
      have h8 := List.range'_append_1 i 8 (8 * g)
      rw [h8, Nat.mul_succ, Nat.add_comm (8 * g) 8]
    calc (List.range' i (g + 1) 8).foldl (groupStep fadd) s
        = (List.range' (i + 8) g 8).foldl (groupStep fadd) (groupStep fadd s i) := by
          rfl
      _ = (List.range' (i + 8) (8 * g)).foldl (pstep fadd) (groupStep fadd s i) :=
          ih (i + 8) (groupStep fadd s i)
      _ = (List.range' i (8 * (g + 1))).foldl (pstep fadd) s := by
          rw [← hsplit, List.foldl_append]; rfl

/-- With n a multiple of 8, the unchecked vector loop runs the scalar
body over exactly the range 0 .. n-1, i.e. is the baseline loop. -/
theorem simd_total_eq_baseline {α : Type} (fadd : α → α → α) (n : Nat) (h : 8 ∣ n)
    (s : PState α) :
    update_positions_simd_total fadd n s = update_positions_baseline fadd n s := by
  rcases h with ⟨q, rfl⟩
  have hq : (8 * q + 7) / 8 = q := by
    omega
  unfold update_positions_simd_total update_positions_baseline groupStarts
  rw [hq, fold_groupStep_eq, List.range_eq_range']

/-- With n a multiple of 8, every group is fully in bounds and the
checked vector loop completes, computing the unchecked result. -/
theorem simd_chk_eq_total {α : Type} (fadd : α → α → α) (n : Nat) (h : 8 ∣ n)
    (s : PState α) :
    update_positions_simd fadd n s = some (update_positions_simd_total fadd n s) := by
  rcases h with ⟨q, rfl⟩
  have hq : (8 * q + 7) / 8 = q := by omega
  unfold update_positions_simd update_positions_simd_total
  refine foldChk_of_all_some _ _ _ ?_ s
  intro i hi t
  unfold groupStarts at hi
  rw [hq] at hi
  rcases List.mem_range'.1 hi with ⟨m, hm, rfl⟩
  have : 8 * m + 8 ≤ 8 * q := by omega
  simp [groupStepChk, this]

/-- The indices touched by the vector loop are exactly 0 .. 8*ceil(n/8)-1. -/
theorem mem_simd_access_iff (n k : Nat) :
    k ∈ simd_access_indices n ↔ k < 8 * ((n + 7) / 8) := by
  unfold simd_access_indices groupStarts
  rw [mem_concatMapL]
  constructor
  · rintro ⟨i, hi, hk⟩
    rcases List.mem_range'.1 hi with ⟨m, hm, rfl⟩
    rcases List.mem_range'_1.1 hk with ⟨h1, h2⟩
    omega
  · intro hk
    refine ⟨8 * (k / 8), List.mem_range'.2 ⟨k / 8, by omega, by omega⟩, ?_⟩
    exact List.mem_range'_1.2 ⟨by omega, by omega⟩

/-- Every access of the vector loop is inside the buffers iff n is a
multiple of the group width 8. -/
theorem simd_access_bounded_iff (n : Nat) :
    (∀ k ∈ simd_access_indices n, k < n) ↔ 8 ∣ n := by
  constructor
  · intro h
    by_contra hd
    have hn : 0 < n := by
      rcases Nat.eq_zero_or_pos n with h0 | h0
      · exact absurd (h0 ▸ Nat.dvd_zero 8) hd
      · exact h0
    have hmem : n ∈ simd_access_indices n := by
      rw [mem_simd_access_iff]
      have h8 : n % 8 ≠ 0 := fun hc => hd (Nat.dvd_of_mod_eq_zero hc)
      omega
    exact absurd (h n hmem) (by omega)
  · rintro ⟨q, rfl⟩ k hk
    rw [mem_simd_access_iff] at hk
    omega

/-- For positive n not a multiple of 8, the final group accesses the
out-of-range index n itself (and beyond). -/
theorem simd_access_oob (n : Nat) (_hn : 0 < n) (hd : ¬ 8 ∣ n) :
    n ∈ simd_access_indices n := by
  rw [mem_simd_access_iff]
  have h8 : n % 8 ≠ 0 := fun hc => hd (Nat.dvd_of_mod_eq_zero hc)
  omega

/-!
Population Counter (ParticleSimulator::count_set_bits, simulator.cpp
lines 24-37).  The 64-bit operand is a Nat below 2^64.  The
USE_X86_ASM branch is the x86 popcnt instruction, whose semantics is
the number of set bit positions 0..63 of the operand; the portable
branch is __builtin_popcountll, modelled as the standard
shift-and-add count over the 64 bits of the word.
-/

/-- Shift-and-add bit count: adds the low bit and recurses on the
shifted word, for the given number of bit positions. -/
def popAux : Nat → Nat → Nat
  | 0, _ => 0
  | f + 1, v => v % 2 + popAux f (v / 2)

/-- ParticleSimulator::count_set_bits, USE_X86_ASM branch: the popcnt
instruction counts the set bit positions of the 64-bit register. -/
def count_set_bits_asm (v : Nat) : Nat :=
  ((List.range 64).filter (fun i => v.testBit i)).length

/-- ParticleSimulator::count_set_bits, portable branch:
__builtin_popcountll over the 64 bits of the operand. -/
def count_set_bits_builtin (v : Nat) : Nat :=
  popAux 64 v

/-- ParticleSimulator::count_set_bits: the preprocessor (#ifdef
USE_X86_ASM) selects the assembly branch when that flag is defined and
the portable builtin otherwise. -/
def count_set_bits (useAsm : Bool) (v : Nat) : Nat :=
  if useAsm then count_set_bits_asm v else count_set_bits_builtin v

/-- Shift-and-add over f positions counts exactly the set bit
positions below f. -/
theorem popAux_eq_countP :
    ∀ (f v : Nat), popAux f v = (List.range' 0 f).countP (fun i => v.testBit i) := by
  intro f
  induction f with
  | zero => intro v; rfl
  | succ f ih =>
    intro v
    have hcons : List.range' 0 (f + 1) = 0 :: List.range' 1 f := rfl
    have hmap : List.range' 1 f = (List.range' 0 f).map (1 + ·) := by
      rw [List.map_add_range']
    rw [hcons, List.countP_cons, hmap, List.countP_map]
    have hshift :
        (List.range' 0 f).countP ((fun i => v.testBit i) ∘ (1 + ·)) =
          (List.range' 0 f).countP (fun i => (v / 2).testBit i) := by
      refine List.countP_congr ?_
      intro i _
      simp [Function.comp, Nat.add_comm 1 i, Nat.testBit_add_one]
    rw [hshift, ← ih (v / 2)]
    have hbit : (if (fun i => v.testBit i) 0 then 1 else 0) = v % 2 := by
      simp only [Nat.testBit_zero]
      rcases Nat.mod_two_eq_zero_or_one v with h | h <;> simp [h]
    rw [hbit, popAux]
    omega

/-- The two count_set_bits branches agree on every 64-bit operand. -/
theorem count_set_bits_asm_eq_builtin (v : Nat) :
    count_set_bits_asm v = count_set_bits_builtin v := by
  unfold count_set_bits_asm count_set_bits_builtin
  rw [popAux_eq_countP, List.countP_eq_length_filter, List.range_eq_range']

/-- A population count never exceeds the 64 counted positions. -/
theorem count_set_bits_asm_le (v : Nat) : count_set_bits_asm v ≤ 64 := by
  have h := List.length_filter_le (fun i => v.testBit i) (List.range 64)
  simpa [List.length_range] using h

/-!
Matrix Transposer (ParticleSimulator::matrix_transpose_baseline and
ParticleSimulator::matrix_transpose_cache_optimized, simulator.cpp
lines 39-56 and 82-89).  src and dst are the two caller-owned N*N
row-major buffers; every store performed by either implementation has
the shape dst[j*n+i] = src[i*n+j].  The _mm_prefetch in the tiled
version is a latency hint with no effect on memory contents and is
not part of the data model.
-/

/-- State of one transpose call: the borrowed source and destination. -/
@[ext]
structure MState (α : Type) where
  src : Nat → α
  dst : Nat → α

/-- The single store dst[j*n+i] = src[i*n+j] both transpose loops are
built from. -/
def twrite {α : Type} (n : Nat) (s : MState α) (i j : Nat) : MState α :=
  { s with dst := upd s.dst (j * n + i) (s.src (i * n + j)) }

/-- Transpose stores executed over an explicit list of (i, j) pairs. -/
def transposeWrites {α : Type} (n : Nat) (ps : List (Nat × Nat)) (s : MState α) :
    MState α :=
  ps.foldl (fun s p => twrite n s p.1 p.2) s

/-- ParticleSimulator::matrix_transpose_baseline: the direct double
loop over (i, j) in [0, n) x [0, n). -/
def matrix_transpose_baseline {α : Type} (n : Nat) (s : MState α) : MState α :=
  (List.range n).foldl
    (fun s i => (List.range n).foldl (fun s j => twrite n s i j) s) s

/-- Tile origins of the cache-blocked loops: 0, 16, 32, ... while < n
(block = 64 bytes / sizeof(float) = 16 floats). -/
def tileStarts (n : Nat) : List Nat :=
  List.range' 0 ((n + 15) / 16) 16

/-- Body of one tile of matrix_transpose_cache_optimized: the two inner
loops run ii from i and jj from j while below both the tile edge and n
(edge tiles clamp to n). -/
def tileBody {α : Type} (n : Nat) (s : MState α) (i j : Nat) : MState α :=
  (List.range' i (min (i + 16) n - i)).foldl
    (fun s ii =>
      (List.range' j (min (j + 16) n - j)).foldl (fun s jj => twrite n s ii jj) s) s

/-- ParticleSimulator::matrix_transpose_cache_optimized: the two outer
loops walk the tile grid in steps of 16 and run the tile body. -/
def matrix_transpose_cache_optimized {α : Type} (n : Nat) (s : MState α) : MState α :=
  (tileStarts n).foldl
    (fun s i => (tileStarts n).foldl (fun s j => tileBody n s i j) s) s

/-- Iteration pairs of a double loop: out gives the outer values, inn
the inner list for each outer value. -/
def pairsOf (out : List Nat) (inn : Nat → List Nat) : List (Nat × Nat) :=
  concatMapL (fun i => (inn i).map (fun j => (i, j))) out

theorem mem_pairsOf (out : List Nat) (inn : Nat → List Nat) (p : Nat × Nat) :
    p ∈ pairsOf out inn ↔ p.1 ∈ out ∧ p.2 ∈ inn p.1 := by
  unfold pairsOf
  rw [mem_concatMapL]
  constructor
  · rintro ⟨b, hb, hp⟩
    rcases List.mem_map.1 hp with ⟨j, hj, rfl⟩
    exact ⟨hb, hj⟩
  · rintro ⟨h1, h2⟩
    exact ⟨p.1, h1, List.mem_map.2 ⟨p.2, h2, rfl⟩⟩

theorem foldl_pairsOf {σ : Type} (f : σ → Nat × Nat → σ) (out : List Nat)
    (inn : Nat → List Nat) (s : σ) :
    (pairsOf out inn).foldl f s =
      out.foldl (fun s i => (inn i).foldl (fun s j => f s (i, j)) s) s := by
  unfold pairsOf
  rw [foldl_concatMapL]
  simp [List.foldl_map]

/-- Iteration pairs of the baseline double loop. -/
def basePairs (n : Nat) : List (Nat × Nat) :=
  pairsOf (List.range n) (fun _ => List.range n)

/-- Tile-origin pairs walked by the two outer blocked loops. -/
def tilePairs (n : Nat) : List (Nat × Nat) :=
  pairsOf (tileStarts n) (fun _ => tileStarts n)

/-- Iteration pairs of the two inner loops of the tile at origin p. -/
def innerPairs (n : Nat) (p : Nat × Nat) : List (Nat × Nat) :=
  pairsOf (List.range' p.1 (min (p.1 + 16) n - p.1))
    (fun _ => List.range' p.2 (min (p.2 + 16) n - p.2))

/-- Element pairs written by the blocked loops, tile by tile. -/
def tiledPairs (n : Nat) : List (Nat × Nat) :=
  concatMapL (innerPairs n) (tilePairs n)

theorem baseline_eq_writes {α : Type} (n : Nat) (s : MState α) :
    matrix_transpose_baseline n s = transposeWrites n (basePairs n) s := by
  unfold matrix_transpose_baseline transposeWrites basePairs
  rw [foldl_pairsOf]

theorem tileBody_eq_writes {α : Type} (n : Nat) (s : MState α) (i j : Nat) :
    tileBody n s i j = transposeWrites n (innerPairs n (i, j)) s := by
  unfold tileBody transposeWrites innerPairs
  rw [foldl_pairsOf]

/-- Running the tile bodies over any list of tile origins performs the
transpose stores of those tiles' element pairs, in order. -/
theorem fold_tileBody_eq_writes {α : Type} (n : Nat) (L : List (Nat × Nat))
    (s : MState α) :
    L.foldl (fun s p => tileBody n s p.1 p.2) s =
      transposeWrites n (concatMapL (innerPairs n) L) s := by
  unfold transposeWrites
  rw [foldl_concatMapL]
  have hbody : (fun (s : MState α) (p : Nat × Nat) => tileBody n s p.1 p.2) =
      fun s p => transposeWrites n (innerPairs n p) s := by
    funext s p
    rw [tileBody_eq_writes]
  rw [hbody]
  rfl

theorem cache_optimized_eq_writes {α : Type} (n : Nat) (s : MState α) :
    matrix_transpose_cache_optimized n s = transposeWrites n (tiledPairs n) s := by
  unfold tiledPairs
  rw [← fold_tileBody_eq_writes]
  unfold matrix_transpose_cache_optimized
  rw [← foldl_pairsOf (fun s p => tileBody n s p.1 p.2) (tileStarts n)
    (fun _ => tileStarts n) s]
  rfl

theorem transposeWrites_src {α : Type} (n : Nat) (ps : List (Nat × Nat))
    (s : MState α) : (transposeWrites n ps s).src = s.src := by
  induction ps generalizing s with
  | nil => rfl
  | cons p ps ih => simpa [transposeWrites, twrite] using ih (twrite n s p.1 p.2)

theorem addr_mod {n i j : Nat} (hi : i < n) : (j * n + i) % n = i := by
  rw [Nat.add_comm, Nat.add_mul_mod_self_right]
  exact Nat.mod_eq_of_lt hi

theorem addr_div {n i j : Nat} (hi : i < n) : (j * n + i) / n = j := by
  rw [Nat.add_comm, Nat.add_mul_div_right _ _ (Nat.zero_lt_of_lt hi)]
  rw [Nat.div_eq_of_lt hi, Nat.zero_add]

theorem addr_lt {n i j : Nat} (hi : i < n) (hj : j < n) : j * n + i < n * n := by
  have h1 : j * n + i < (j + 1) * n := by
    rw [Nat.succ_mul]
    omega
  have h2 : (j + 1) * n ≤ n * n := Nat.mul_le_mul_right n hj
  omega

/-- Characterization of a run of transpose stores whose index pairs all
lie in [0, n)^2: cell k of dst receives src[(k%n)*n + k/n] exactly when
the pair (k%n, k/n) is among the executed iterations, and every other
cell of dst is untouched. -/
theorem transposeWrites_dst {α : Type} (n : Nat) (ps : List (Nat × Nat))
    (hps : ∀ p ∈ ps, p.1 < n ∧ p.2 < n) (s : MState α) (k : Nat) :
    (transposeWrites n ps s).dst k =
      if k < n * n ∧ (k % n, k / n) ∈ ps then s.src ((k % n) * n + k / n)
      else s.dst k := by
  induction ps generalizing s with
  | nil => simp [transposeWrites]
  | cons p ps ih =>
    have hp := hps p (List.mem_cons_self p ps)
    have hrest : ∀ q ∈ ps, q.1 < n ∧ q.2 < n :=
      fun q hq => hps q (List.mem_cons_of_mem p hq)
    have hstep : transposeWrites n (p :: ps) s =
        transposeWrites n ps (twrite n s p.1 p.2) := rfl
    rw [hstep, ih hrest]
    by_cases hmem : k < n * n ∧ (k % n, k / n) ∈ ps
    · simp only [hmem, and_true, if_pos, twrite]
      have : (k % n, k / n) ∈ p :: ps := List.mem_cons_of_mem p hmem.2
      simp [hmem.1, this]
    · rw [if_neg hmem]
      by_cases hhead : k < n * n ∧ (k % n, k / n) = p
      · have hkmem : (k % n, k / n) ∈ p :: ps := hhead.2 ▸ List.mem_cons_self p ps
        rw [if_pos ⟨hhead.1, hkmem⟩]
        have hk1 : k % n = p.1 := by rw [← hhead.2]
        have hk2 : k / n = p.2 := by rw [← hhead.2]
        have hkaddr : k = p.2 * n + p.1 := by
          have := Nat.div_add_mod k n
          rw [hk1, hk2] at this
          rw [← this, Nat.mul_comm]
        simp only [twrite]
        rw [hkaddr, upd_self, addr_mod hp.1, addr_div hp.1]
      · have hknot : ¬ (k < n * n ∧ (k % n, k / n) ∈ p :: ps) := by
          rintro ⟨hklt, hkm⟩
          rcases List.mem_cons.1 hkm with he | hm
          · exact hhead ⟨hklt, he⟩
          · exact hmem ⟨hklt, hm⟩
        rw [if_neg hknot]
        simp only [twrite]
        have hne : k ≠ p.2 * n + p.1 := by
          intro hk
          have h1 : k % n = p.1 := hk ▸ addr_mod hp.1
          have h2 : k / n = p.2 := hk ▸ addr_div hp.1
          have h3 : k < n * n := hk ▸ addr_lt hp.1 hp.2
          exact hhead ⟨h3, by rw [h1, h2]⟩
        exact upd_other _ _ _ hne

theorem mem_basePairs (n : Nat) (p : Nat × Nat) :
    p ∈ basePairs n ↔ p.1 < n ∧ p.2 < n := by
  unfold basePairs
  rw [mem_pairsOf]
  simp [List.mem_range]

/-- The element pairs visited by the blocked loops are exactly the pairs
of [0, n)^2: every pair of every tile is in range (edge tiles clamp to
n), and conversely each index pair lies in the tile of its origins. -/
theorem mem_tiledPairs (n : Nat) (p : Nat × Nat) :
    p ∈ tiledPairs n ↔ p.1 < n ∧ p.2 < n := by
  unfold tiledPairs
  rw [mem_concatMapL]
  constructor
  · rintro ⟨t, _, hp⟩
    rw [innerPairs, mem_pairsOf] at hp
    rcases hp with ⟨h1, h2⟩
    rcases List.mem_range'_1.1 h1 with ⟨hl1, hr1⟩
    rcases List.mem_range'_1.1 h2 with ⟨hl2, hr2⟩
    constructor <;> omega
  · rintro ⟨h1, h2⟩
    refine ⟨(16 * (p.1 / 16), 16 * (p.2 / 16)), ?_, ?_⟩
    · rw [tilePairs, mem_pairsOf]
      constructor
      · rw [tileStarts]
        exact List.mem_range'.2 ⟨p.1 / 16, by omega, by omega⟩
      · rw [tileStarts]
        exact List.mem_range'.2 ⟨p.2 / 16, by omega, by omega⟩
    · rw [innerPairs, mem_pairsOf]
      constructor
      · exact List.mem_range'_1.2 ⟨by omega, by omega⟩
      · exact List.mem_range'_1.2 ⟨by omega, by omega⟩

/-- Destination written by the baseline transpose: dst cell k holds
src[(k%n)*n + k/n] inside the matrix and is untouched outside it. -/
theorem baseline_dst {α : Type} (n : Nat) (s : MState α) (k : Nat) :
    (matrix_transpose_baseline n s).dst k =
      if k < n * n then s.src ((k % n) * n + k / n) else s.dst k := by
  rw [baseline_eq_writes,
    transposeWrites_dst n _ (fun p hp => (mem_basePairs n p).1 hp) s k]
  by_cases hk : k < n * n
  · have hn : 0 < n := by
      rcases Nat.eq_zero_or_pos n with h0 | h0
      · subst h0; simp at hk
      · exact h0
    have hmod : k % n < n := Nat.mod_lt _ hn
    have hdiv : k / n < n := by
      rw [Nat.div_lt_iff_lt_mul hn]
      omega
    simp [hk, mem_basePairs, hmod, hdiv]
  · simp [hk]

/-- Destination written by the blocked transpose: the same formula as
the baseline. -/
theorem cache_optimized_dst {α : Type} (n : Nat) (s : MState α) (k : Nat) :
    (matrix_transpose_cache_optimized n s).dst k =
      if k < n * n then s.src ((k % n) * n + k / n) else s.dst k := by
  rw [cache_optimized_eq_writes,
    transposeWrites_dst n _ (fun p hp => (mem_tiledPairs n p).1 hp) s k]
  by_cases hk : k < n * n
  · have hn : 0 < n := by
      rcases Nat.eq_zero_or_pos n with h0 | h0
      · subst h0; simp at hk
      · exact h0
    have hmod : k % n < n := Nat.mod_lt _ hn
    have hdiv : k / n < n := by
      rw [Nat.div_lt_iff_lt_mul hn]
      omega
    simp [hk, mem_tiledPairs, hmod, hdiv]
  · simp [hk]

/-!
Block Memory Copier (ParticleSimulator::custom_memcpy, simulator.cpp
lines 58-71).  Memory is one byte-addressed buffer mem : Nat → β; a
call copies n bytes from offset s to offset d of that buffer.
-/

/-- The __x86_64__ branch of custom_memcpy: rep movsb moves one byte
from [rsi] to [rdi] and increments both registers, n times in
sequence. -/
def custom_memcpy_x86 {β : Type} (mem : Nat → β) (d s n : Nat) : Nat → β :=
  (List.range n).foldl (fun m i => upd m (d + i) (m (s + i))) mem

/-- The portable branch of custom_memcpy: std::memcpy, whose contract
on non-overlapping regions fills each destination byte with the
corresponding source byte of the original memory and touches nothing
else. -/
def memcpy_fallback {β : Type} (mem : Nat → β) (d s n : Nat) : Nat → β :=
  fun a => if d ≤ a ∧ a < d + n then mem (s + (a - d)) else mem a

/-- Byte-level effect of the rep movsb loop on disjoint regions: it is
exactly the portable contract. -/
theorem custom_memcpy_x86_spec {β : Type} (mem : Nat → β) (d s : Nat) :
    ∀ n, (∀ i < n, ∀ j < n, d + i ≠ s + j) →
      ∀ a, custom_memcpy_x86 mem d s n a =
        if d ≤ a ∧ a < d + n then mem (s + (a - d)) else mem a := by
  intro n
  induction n with
  | zero =>
    intro _ a
    have h0 : ¬ (d ≤ a ∧ a < d + 0) := by omega
    rw [if_neg h0]
    rfl
  | succ n ih =>
    intro hdisj a
    have hrest : ∀ i < n, ∀ j < n, d + i ≠ s + j :=
      fun i hi j hj => hdisj i (by omega) j (by omega)
    have hstep : custom_memcpy_x86 mem d s (n + 1) =
        upd (custom_memcpy_x86 mem d s n) (d + n)
          (custom_memcpy_x86 mem d s n (s + n)) := by
      unfold custom_memcpy_x86
      rw [List.range_succ, List.foldl_append]
      rfl
    have hval : custom_memcpy_x86 mem d s n (s + n) = mem (s + n) := by
      rw [ih hrest (s + n)]
      have hc : ¬ (d ≤ s + n ∧ s + n < d + n) := by
        rintro ⟨h1, h2⟩
        exact hdisj (s + n - d) (by omega) n (by omega) (by omega)
      rw [if_neg hc]
    rw [hstep]
    by_cases ha : a = d + n
    · subst ha
      rw [upd_self, hval, if_pos ⟨by omega, by omega⟩]
      congr 1
      omega
    · rw [upd_other _ _ _ ha, ih hrest a]
      by_cases hc : d ≤ a ∧ a < d + n
      · rw [if_pos hc, if_pos ⟨hc.1, by omega⟩]
      · rw [if_neg hc, if_neg ?_]
        rintro ⟨h1, h2⟩
        exact hc ⟨h1, by omega⟩

/-!
Compile-time dispatch (simulator.cpp preprocessor structure, spec
section on fallback policy).  The preprocessor of this repository
distinguishes __x86_64__, __aarch64__ and anything else (main.cpp
lines 127-133).
-/

/-- Target architectures distinguished by the repository's
preprocessor conditionals. -/
inductive Arch
  | x86_64
  | aarch64
  | other
deriving DecidableEq

/-- The four kernel pairs of the library. -/
inductive Kernel
  | positionUpdate
  | popCount
  | matrixTranspose
  | memCopy
deriving DecidableEq

/-- Whether the specialized path of a kernel builds and runs on an
architecture, read off the preprocessor structure of simulator.cpp:
count_set_bits guards its asm with #ifdef USE_X86_ASM / #else builtin
and custom_memcpy guards rep movsb with #ifdef __x86_64__ / #else
std::memcpy, so both build and run everywhere; update_positions_simd
(AVX2 intrinsics from the unconditional include of immintrin.h,
commented "NOT portable to ARM") and matrix_transpose_cache_optimized
(_mm_prefetch) have no portable branch and fail to build off x86. -/
def compilesAndRunsOn : Kernel → Arch → Bool
  | .popCount, _ => true
  | .memCopy, _ => true
  | .positionUpdate, .x86_64 => true
  | .positionUpdate, _ => false
  | .matrixTranspose, .x86_64 => true
  | .matrixTranspose, _ => false

/-- ParticleSimulator::custom_memcpy: rep movsb when __x86_64__ is
defined, std::memcpy otherwise. -/
def custom_memcpy {β : Type} (arch : Arch) (mem : Nat → β) (d s n : Nat) : Nat → β :=
  match arch with
  | .x86_64 => custom_memcpy_x86 mem d s n
  | _ => memcpy_fallback mem d s n

/-- On disjoint regions every architecture's custom_memcpy branch has
the portable byte-copy behavior. -/
theorem custom_memcpy_spec {β : Type} (arch : Arch) (mem : Nat → β) (d s n : Nat)
    (hdisj : ∀ i < n, ∀ j < n, d + i ≠ s + j) (a : Nat) :
    custom_memcpy arch mem d s n a =
      if d ≤ a ∧ a < d + n then mem (s + (a - d)) else mem a := by
  cases arch with
  | x86_64 => exact custom_memcpy_x86_spec mem d s n hdisj a
  | aarch64 => rfl
  | other => rfl

/-!
Loop-iteration independence (spec section 5): machinery to run a loop
body over a permuted iteration list.
-/

/-- Folding a pairwise-commuting body over any permutation of the
iteration list computes the same result. -/
theorem foldl_perm_comm {σ β : Type} (f : σ → β → σ)
    (hf : ∀ s a b, f (f s a) b = f (f s b) a) :
    ∀ {l₁ l₂ : List β}, l₁.Perm l₂ → ∀ s, l₁.foldl f s = l₂.foldl f s := by
  intro l₁ l₂ h
  induction h with
  | nil => intro s; rfl
  | cons a _ ih => intro s; simp only [List.foldl_cons]; exact ih (f s a)
  | swap a b l => intro s; simp only [List.foldl_cons]; rw [hf]
  | trans _ _ ih1 ih2 => intro s; rw [ih1 s, ih2 s]

theorem foldl_comm_single {σ β : Type} (f : σ → β → σ)
    (hf : ∀ s a b, f (f s a) b = f (f s b) a) (l : List β) :
    ∀ (s : σ) (a : β), l.foldl f (f s a) = f (l.foldl f s) a := by
  induction l with
  | nil => intro s a; rfl
  | cons b l ih =>
    intro s a
    simp only [List.foldl_cons]
    rw [hf s a b]
    exact ih (f s b) a

/-- Two folds of a pairwise-commuting body commute with each other. -/
theorem foldl_foldl_comm {σ β : Type} (f : σ → β → σ)
    (hf : ∀ s a b, f (f s a) b = f (f s b) a) (l₁ l₂ : List β) :
    ∀ s : σ, l₂.foldl f (l₁.foldl f s) = l₁.foldl f (l₂.foldl f s) := by
  induction l₁ with
  | nil => intro s; rfl
  | cons a l ih =>
    intro s
    simp only [List.foldl_cons]
    rw [ih (f s a), foldl_comm_single f hf l₂ s a]

/-- Writes to distinct cells commute. -/
theorem upd_comm {α : Type} (f : Nat → α) {i j : Nat} (h : i ≠ j) (u v : α) :
    upd (upd f i u) j v = upd (upd f j v) i u := by
  funext a
  unfold upd
  by_cases h1 : a = j <;> by_cases h2 : a = i
  · exact absurd (h2.symm.trans h1) h
  · simp [h1, h2, Ne.symm h]
  · simp [h1, h2, h]
  · simp [h1, h2]

/-- Scalar bodies of update_positions at any two indices commute: each
iteration writes only cell i of x and y and reads cells that no other
iteration writes. -/
theorem pstep_comm {α : Type} (fadd : α → α → α) (s : PState α) (i j : Nat) :
    pstep fadd (pstep fadd s i) j = pstep fadd (pstep fadd s j) i := by
  by_cases hij : i = j
  · subst hij; rfl
  · have hne : j ≠ i := fun h => hij h.symm
    have h1 : ∀ (g : Nat → α) (v : α), upd g i v j = g j :=
      fun g v => upd_other g i v hne
    have h2 : ∀ (g : Nat → α) (v : α), upd g j v i = g i :=
      fun g v => upd_other g j v hij
    simp only [pstep, h1, h2]
    rw [upd_comm s.x hij, upd_comm s.y hij]

/-- Whole vector groups commute as loop bodies. -/
theorem groupStep_comm {α : Type} (fadd : α → α → α) (s : PState α) (i j : Nat) :
    groupStep fadd (groupStep fadd s i) j = groupStep fadd (groupStep fadd s j) i := by
  unfold groupStep
  exact foldl_foldl_comm (pstep fadd) (fun s a b => pstep_comm fadd s a b)
    (List.range' i 8) (List.range' j 8) s

/-- Every pair produced by the two inner loops of a tile lies in
[0, n)^2. -/
theorem innerPairs_bounds (n : Nat) (t p : Nat × Nat) (hp : p ∈ innerPairs n t) :
    p.1 < n ∧ p.2 < n := by
  rw [innerPairs, mem_pairsOf] at hp
  rcases hp with ⟨h1, h2⟩
  rcases List.mem_range'_1.1 h1 with ⟨hl1, hr1⟩
  rcases List.mem_range'_1.1 h2 with ⟨hl2, hr2⟩
  constructor <;> omega

/-- Helper for the SIMD frame property: whenever the checked vector
loop completes, the velocity buffers are those it started with. -/
theorem foldChk_groupStep_frame {α : Type} (fadd : α → α → α) (n : Nat) :
    ∀ (l : List Nat) (s u : PState α),
      foldChk (groupStepChk fadd n) s l = some u → u.vx = s.vx ∧ u.vy = s.vy := by
  intro l
  induction l with
  | nil =>
    intro s u h
    cases h
    exact ⟨rfl, rfl⟩
  | cons i l ih =>
    intro s u h
    by_cases h8 : i + 8 ≤ n
    · have hstep : foldChk (groupStepChk fadd n) s (i :: l) =
          foldChk (groupStepChk fadd n) (groupStep fadd s i) l := by
        simp [foldChk, groupStepChk, h8]
      rw [hstep] at h
      have hgs := fold_pstep_vx fadd (List.range' i 8) s
      have := ih (groupStep fadd s i) u h
      exact ⟨this.1.trans hgs.1, this.2.trans hgs.2⟩
    · have hstep : foldChk (groupStepChk fadd n) s (i :: l) = none := by
        simp [foldChk, groupStepChk, h8]
      rw [hstep] at h
      exact Option.noConfusion h

/-!
Claims.
-/

/-- C1 counterexample: with buffers of length exactly N = 1 the vector
loop's first group already reads and writes past the end of every
array, so the two implementations do not produce identical final
arrays — the SIMD call does not even complete within bounds. -/
theorem C1_counterexample :
    update_positions_simd (fun a b : Int => a + b) 1
        ⟨fun _ => 0, fun _ => 0, fun _ => 0, fun _ => 0⟩ ≠
      some (update_positions_baseline (fun a b : Int => a + b) 1
        ⟨fun _ => 0, fun _ => 0, fun _ => 0, fun _ => 0⟩) := by
  intro h
  exact Option.noConfusion h

/-- C1 amended: for every N that is a multiple of the vector width 8
and all four equal-length aligned arrays, the SIMD update completes in
bounds and its final state (x and y arrays included) is exactly the
baseline's. -/
theorem C1_simd_eq_baseline {α : Type} (fadd : α → α → α) (n : Nat) (h : 8 ∣ n)
    (s : PState α) :
    update_positions_simd fadd n s = some (update_positions_baseline fadd n s) := by
  rw [simd_chk_eq_total fadd n h s, simd_total_eq_baseline fadd n h s]

theorem C1_simd_eq_baseline_witness :
    (8 ∣ 8) ∧
    update_positions_simd (fun a b : Int => a + b) 8
        ⟨fun _ => 1, fun _ => 2, fun _ => 3, fun _ => 4⟩ =
      some (update_positions_baseline (fun a b : Int => a + b) 8
        ⟨fun _ => 1, fun _ => 2, fun _ => 3, fun _ => 4⟩) :=
  ⟨⟨1, rfl⟩, C1_simd_eq_baseline (fun a b : Int => a + b) 8 ⟨1, rfl⟩
    ⟨fun _ => 1, fun _ => 2, fun _ => 3, fun _ => 4⟩⟩

/-- C2 counterexample: the position-update kernel has a specialized
path (AVX2) but no portable branch — it does not build or run on a
non-x86 architecture, refuting the claim for that kernel. -/
theorem C2_counterexample :
    compilesAndRunsOn Kernel.positionUpdate Arch.aarch64 = false := rfl

/-- C2 amended: only the population-count and memory-copy kernels have
a portable fallback; those two compile and run on every architecture
with the specialized and portable branches in exact agreement (the
copier on disjoint regions), while the position-update and transpose
kernels use x86-only intrinsics unconditionally. -/
theorem C2_fallback (arch : Arch) :
    compilesAndRunsOn Kernel.popCount arch = true ∧
    compilesAndRunsOn Kernel.memCopy arch = true ∧
    (∀ v : Nat, count_set_bits true v = count_set_bits false v) ∧
    (∀ (β : Type) (mem : Nat → β) (d s n : Nat),
      (∀ i < n, ∀ j < n, d + i ≠ s + j) →
      ∀ a, custom_memcpy arch mem d s n a = memcpy_fallback mem d s n a) := by
  refine ⟨by cases arch <;> rfl, by cases arch <;> rfl, ?_, ?_⟩
  · intro v
    exact count_set_bits_asm_eq_builtin v
  · intro β mem d s n hdisj a
    rw [custom_memcpy_spec arch mem d s n hdisj a]
    rfl

theorem C2_fallback_witness :
    count_set_bits true 6 = count_set_bits false 6 ∧
    (∀ i < 2, ∀ j < 2, 0 + i ≠ 4 + j) ∧
    custom_memcpy Arch.aarch64 (fun a => a) 0 4 2 1 = 5 := by
  obtain ⟨-, -, h3, h4⟩ := C2_fallback Arch.aarch64
  refine ⟨h3 6, by decide, ?_⟩
  rw [h4 Nat (fun a => a) 0 4 2 (by decide) 1]
  rfl

/-- C3: for every N (tile-aligned or not) and every source matrix, the
cache-blocked transpose ends in exactly the state the baseline
transpose ends in — the destination agrees cell for cell. -/
theorem C3_transpose_equiv {α : Type} (n : Nat) (s : MState α) :
    matrix_transpose_cache_optimized n s = matrix_transpose_baseline n s := by
  apply MState.ext
  · rw [cache_optimized_eq_writes, baseline_eq_writes, transposeWrites_src,
      transposeWrites_src]
  · funext k
    rw [cache_optimized_dst, baseline_dst]

/-- C4: for every 64-bit operand the popcnt-assembly branch and the
portable-builtin branch of count_set_bits return the same value, and
that value is at most 64. -/
theorem C4_count_set_bits (v : Nat) (_hv : v < 2 ^ 64) :
    count_set_bits_asm v = count_set_bits_builtin v ∧ count_set_bits_asm v ≤ 64 :=
  ⟨count_set_bits_asm_eq_builtin v, count_set_bits_asm_le v⟩

theorem C4_count_set_bits_witness :
    (0xFFFFFFFFFFFFFFFF : Nat) < 2 ^ 64 ∧
    (count_set_bits_asm 0xFFFFFFFFFFFFFFFF = count_set_bits_builtin 0xFFFFFFFFFFFFFFFF ∧
      count_set_bits_asm 0xFFFFFFFFFFFFFFFF ≤ 64) :=
  ⟨by decide, C4_count_set_bits 0xFFFFFFFFFFFFFFFF (by decide)⟩

/-- C5: the baseline transpose establishes dst[j*N+i] = src[i*N+j] for
all i, j below N. -/
theorem C5_baseline_transpose {α : Type} (n : Nat) (s : MState α) (i j : Nat)
    (hi : i < n) (hj : j < n) :
    (matrix_transpose_baseline n s).dst (j * n + i) = s.src (i * n + j) := by
  rw [baseline_dst, if_pos (addr_lt hi hj), addr_mod hi, addr_div hi]

theorem C5_baseline_transpose_witness :
    (0 : Nat) < 2 ∧ (1 : Nat) < 2 ∧
    (matrix_transpose_baseline 2
        (MState.mk (fun k => k) (fun _ => 0))).dst (1 * 2 + 0) =
      (fun k : Nat => k) (0 * 2 + 1) :=
  ⟨by decide, by decide,
    C5_baseline_transpose 2 ⟨fun k => k, fun _ => 0⟩ 0 1 (by decide) (by decide)⟩

/-- C6: on disjoint regions custom_memcpy (on every architecture)
makes dst[0..n) byte-for-byte equal to src[0..n), leaves the source
region unchanged, and for n = 0 leaves all of memory untouched. -/
theorem C6_custom_memcpy {β : Type} (arch : Arch) (mem : Nat → β) (d s n : Nat)
    (hdisj : ∀ i < n, ∀ j < n, d + i ≠ s + j) :
    (∀ i < n, custom_memcpy arch mem d s n (d + i) = mem (s + i)) ∧
    (∀ j < n, custom_memcpy arch mem d s n (s + j) = mem (s + j)) ∧
    (n = 0 → custom_memcpy arch mem d s n = mem) := by
  refine ⟨?_, ?_, ?_⟩
  · intro i hi
    rw [custom_memcpy_spec arch mem d s n hdisj, if_pos ⟨by omega, by omega⟩]
    congr 1
    omega
  · intro j hj
    rw [custom_memcpy_spec arch mem d s n hdisj]
    have hc : ¬ (d ≤ s + j ∧ s + j < d + n) := by
      rintro ⟨h1, h2⟩
      exact hdisj (s + j - d) (by omega) j hj (by omega)
    rw [if_neg hc]
  · intro h0
    subst h0
    funext a
    rw [custom_memcpy_spec arch mem d s 0 hdisj, if_neg (by omega)]

theorem C6_custom_memcpy_witness :
    (∀ i < 2, ∀ j < 2, 0 + i ≠ 4 + j) ∧
    custom_memcpy Arch.x86_64 (fun a => a) 0 4 2 (0 + 1) = (fun a : Nat => a) (4 + 1) :=
  ⟨by decide,
    (C6_custom_memcpy Arch.x86_64 (fun a => a) 0 4 2 (by decide)).1 1 (by decide)⟩

/-- C7: transposing with the baseline twice (src into a first buffer,
that buffer into a second) returns every matrix cell to its original
value — transpose is an involution. -/
theorem C7_involution {α : Type} (n : Nat) (s1 : MState α) (d2 : Nat → α) (k : Nat)
    (hk : k < n * n) :
    (matrix_transpose_baseline n
        (MState.mk (matrix_transpose_baseline n s1).dst d2)).dst k = s1.src k := by
  have hn : 0 < n := by
    rcases Nat.eq_zero_or_pos n with h0 | h0
    · subst h0; simp at hk
    · exact h0
  have hmod : k % n < n := Nat.mod_lt _ hn
  have hdiv : k / n < n := by
    rw [Nat.div_lt_iff_lt_mul hn]
    omega
  rw [baseline_dst, if_pos hk]
  show (matrix_transpose_baseline n s1).dst (k % n * n + k / n) = s1.src k
  rw [baseline_dst, if_pos (addr_lt hdiv hmod), addr_mod hdiv, addr_div hdiv]
  show s1.src (k / n * n + k % n) = s1.src k
  congr 1
  rw [Nat.mul_comm]
  exact Nat.div_add_mod k n

theorem C7_involution_witness :
    (0 : Nat) < 1 * 1 ∧
    (matrix_transpose_baseline 1
        (MState.mk
          (matrix_transpose_baseline 1 (MState.mk (fun k => k + 7) (fun _ => 0))).dst
          (fun _ => 0))).dst 0 = (fun k : Nat => k + 7) 0 :=
  ⟨by decide,
    C7_involution 1 ⟨fun k => k + 7, fun _ => 0⟩ (fun _ => 0) 0 (by decide)⟩

/-- C8: the kernel loop bodies carry no inter-iteration dependency:
running the scalar position loop over any permutation of its indices,
the vector loop over any permutation of its group starts, or the
blocked transpose over any permutation of its tiles, ends in the very
state the program order ends in. -/
theorem C8_iteration_order {α : Type} (fadd : α → α → α) (n : Nat) (s : PState α)
    (t : MState α) :
    (∀ l : List Nat, l.Perm (List.range n) →
      l.foldl (pstep fadd) s = update_positions_baseline fadd n s) ∧
    (∀ l : List Nat, l.Perm (groupStarts n) →
      l.foldl (groupStep fadd) s = update_positions_simd_total fadd n s) ∧
    (∀ L : List (Nat × Nat), L.Perm (tilePairs n) →
      L.foldl (fun u p => tileBody n u p.1 p.2) t =
        matrix_transpose_cache_optimized n t) := by
  refine ⟨?_, ?_, ?_⟩
  · intro l hl
    exact foldl_perm_comm (pstep fadd) (fun u a b => pstep_comm fadd u a b) hl s
  · intro l hl
    exact foldl_perm_comm (groupStep fadd) (fun u a b => groupStep_comm fadd u a b) hl s
  · intro L hL
    rw [fold_tileBody_eq_writes, cache_optimized_eq_writes]
    have hb1 : ∀ p ∈ concatMapL (innerPairs n) L, p.1 < n ∧ p.2 < n := by
      intro p hp
      rcases (mem_concatMapL _ _ _).1 hp with ⟨b, _, hpb⟩
      exact innerPairs_bounds n b p hpb
    have hb2 : ∀ p ∈ tiledPairs n, p.1 < n ∧ p.2 < n :=
      fun p hp => (mem_tiledPairs n p).1 hp
    apply MState.ext
    · rw [transposeWrites_src, transposeWrites_src]
    · funext k
      rw [transposeWrites_dst n _ hb1 t k, transposeWrites_dst n _ hb2 t k]
      have hmemiff : ((k % n, k / n) ∈ concatMapL (innerPairs n) L) ↔
          ((k % n, k / n) ∈ tiledPairs n) := by
        rw [mem_concatMapL, tiledPairs, mem_concatMapL]
        constructor
        · rintro ⟨b, hb, hp⟩
          exact ⟨b, hL.mem_iff.1 hb, hp⟩
        · rintro ⟨b, hb, hp⟩
          exact ⟨b, hL.mem_iff.2 hb, hp⟩
      rw [if_congr (and_congr_right (fun _ => hmemiff)) rfl rfl]

theorem C8_iteration_order_witness :
    ([1, 0] : List Nat).Perm (List.range 2) ∧
    ([1, 0] : List Nat).foldl (pstep (fun a b : Int => a + b))
        ⟨fun _ => 0, fun _ => 0, fun _ => 1, fun _ => 1⟩ =
      update_positions_baseline (fun a b : Int => a + b) 2
        ⟨fun _ => 0, fun _ => 0, fun _ => 1, fun _ => 1⟩ :=
  ⟨by decide,
    (C8_iteration_order (fun a b : Int => a + b) 2
        ⟨fun _ => 0, fun _ => 0, fun _ => 1, fun _ => 1⟩
        ⟨fun _ => 0, fun _ => 0⟩).1 [1, 0] (by decide)⟩

/-- C9: with arrays of length exactly n, the vector loop's accesses all
land in [0, n) iff n is a multiple of the group width 8; when 8 divides
n every load and store is in bounds and the result is the baseline's,
and for positive n not a multiple of 8 the final group touches the
out-of-range index n. -/
theorem C9_simd_bounds {α : Type} (fadd : α → α → α) (n : Nat) (s : PState α) :
    ((∀ k ∈ simd_access_indices n, k < n) ↔ 8 ∣ n) ∧
    (8 ∣ n → update_positions_simd fadd n s =
      some (update_positions_baseline fadd n s)) ∧
    (0 < n → ¬ 8 ∣ n → ∃ k ∈ simd_access_indices n, n ≤ k) := by
  refine ⟨simd_access_bounded_iff n, ?_, ?_⟩
  · intro h
    rw [simd_chk_eq_total fadd n h s, simd_total_eq_baseline fadd n h s]
  · intro hn hd
    exact ⟨n, simd_access_oob n hn hd, Nat.le_refl n⟩

theorem C9_simd_bounds_witness :
    (8 ∣ 8) ∧
    update_positions_simd (fun a b : Int => a + b) 8
        ⟨fun _ => 0, fun _ => 0, fun _ => 1, fun _ => 1⟩ =
      some (update_positions_baseline (fun a b : Int => a + b) 8
        ⟨fun _ => 0, fun _ => 0, fun _ => 1, fun _ => 1⟩) ∧
    (0 < 1 ∧ ¬ 8 ∣ 1) ∧ (∃ k ∈ simd_access_indices 1, 1 ≤ k) :=
  ⟨⟨1, rfl⟩,
    (C9_simd_bounds (fun a b : Int => a + b) 8
        ⟨fun _ => 0, fun _ => 0, fun _ => 1, fun _ => 1⟩).2.1 ⟨1, rfl⟩,
    ⟨by decide, by decide⟩,
    (C9_simd_bounds (fun a b : Int => a + b) 1
        ⟨fun _ => 0, fun _ => 0, fun _ => 1, fun _ => 1⟩).2.2 (by decide) (by decide)⟩

/-- C10: every kernel leaves its non-output buffers unchanged: both
position updaters preserve vx and vy (the SIMD one whenever it
completes), and both transpose implementations preserve src. -/
theorem C10_frame {α : Type} (fadd : α → α → α) (n : Nat) (s : PState α)
    (t : MState α) :
    ((update_positions_baseline fadd n s).vx = s.vx ∧
      (update_positions_baseline fadd n s).vy = s.vy) ∧
    (∀ u, update_positions_simd fadd n s = some u → u.vx = s.vx ∧ u.vy = s.vy) ∧
    (matrix_transpose_baseline n t).src = t.src ∧
    (matrix_transpose_cache_optimized n t).src = t.src := by
  refine ⟨fold_pstep_vx fadd (List.range n) s, ?_, ?_, ?_⟩
  · intro u hu
    exact foldChk_groupStep_frame fadd n (groupStarts n) s u hu
  · rw [baseline_eq_writes, transposeWrites_src]
  · rw [cache_optimized_eq_writes, transposeWrites_src]

theorem C10_frame_witness :
    update_positions_simd (fun a b : Int => a + b) 8
        ⟨fun _ => 0, fun _ => 0, fun _ => 1, fun _ => 1⟩ =
      some (update_positions_simd_total (fun a b : Int => a + b) 8
        ⟨fun _ => 0, fun _ => 0, fun _ => 1, fun _ => 1⟩) ∧
    (update_positions_simd_total (fun a b : Int => a + b) 8
        ⟨fun _ => 0, fun _ => 0, fun _ => 1, fun _ => 1⟩).vx = fun _ => (1 : Int) :=
  ⟨simd_chk_eq_total (fun a b : Int => a + b) 8 ⟨1, rfl⟩
      ⟨fun _ => 0, fun _ => 0, fun _ => 1, fun _ => 1⟩,
    ((C10_frame (fun a b : Int => a + b) 8
          ⟨fun _ => 0, fun _ => 0, fun _ => 1, fun _ => 1⟩
          ⟨fun _ => 0, fun _ => 0⟩).2.1
      (update_positions_simd_total (fun a b : Int => a + b) 8
        ⟨fun _ => 0, fun _ => 0, fun _ => 1, fun _ => 1⟩)
      (simd_chk_eq_total (fun a b : Int => a + b) 8 ⟨1, rfl⟩
        ⟨fun _ => 0, fun _ => 0, fun _ => 1, fun _ => 1⟩)).1⟩

end Sim
